import Mathlib

/-!
Verification of the channel-extraction pipeline of `scripts/fetch-ukpacket-nodes.py`
(repository MKme/XCOM), as a shallow embedding in Lean.

Strings are modelled as `List Char` (the relevant inputs are ASCII, so the
ASCII-only case folding and the ASCII reading of the regex classes `\w`, `\s`,
`\d` coincide with Python's behaviour on the inputs of interest).  Python
floats are modelled as `ℚ`: every numeric literal that the extraction pipeline
manipulates has at most 11 significant decimal digits, so all comparisons
against the plausibility band bounds `0.5` and `500.0` (both exact binary
floats) agree between `float` and `ℚ`.
-/

/- The Batteries `Rat` arithmetic operations are marked irreducible, which
blocks kernel evaluation of the concrete test vectors below; restore the
default reducibility locally so that `decide` can evaluate them. -/
set_option allowUnsafeReducibility true
attribute [local semireducible] Rat.add Rat.mul Rat.inv Rat.sub Rat.neg Rat.div

namespace UKPacket

/-! ### Character classes (ASCII readings of Python's `\d`, `\w`, `\s`) -/

def isDigitCh (c : Char) : Bool := decide (48 ≤ c.toNat ∧ c.toNat ≤ 57)

def isWordCh (c : Char) : Bool :=
  isDigitCh c || decide (97 ≤ c.toNat ∧ c.toNat ≤ 122) ||
    decide (65 ≤ c.toNat ∧ c.toNat ≤ 90) || decide (c = '_')

def isSpaceCh (c : Char) : Bool :=
  decide (c = ' ' ∨ c = '\t' ∨ c = '\n' ∨ c = '\r' ∨ c.toNat = 11 ∨ c.toNat = 12)

def toLowerCh (c : Char) : Char :=
  if 65 ≤ c.toNat ∧ c.toNat ≤ 90 then Char.ofNat (c.toNat + 32) else c

def toUpperCh (c : Char) : Char :=
  if 97 ≤ c.toNat ∧ c.toNat ≤ 122 then Char.ofNat (c.toNat - 32) else c

def dotC : Char := '.'
def commaC : Char := ','
def squoteC : Char := Char.ofNat 39
def bslashC : Char := '\\'
def btickC : Char := Char.ofNat 96
def dollarC : Char := '$'
def lbraceC : Char := Char.ofNat 123
def ltC : Char := '<'
def gtC : Char := '>'

def lowerChars (l : List Char) : List Char := l.map toLowerCh
def upperChars (l : List Char) : List Char := l.map toUpperCh

/-- Python's `str.strip()` (whitespace from both ends). -/
def stripWs (l : List Char) : List Char :=
  ((l.dropWhile isSpaceCh).reverse.dropWhile isSpaceCh).reverse

/-- Python's `str.rstrip(c)` for a single strip character. -/
def rstrip (c : Char) (l : List Char) : List Char :=
  (l.reverse.dropWhile (fun a => decide (a = c))).reverse

/-- Does `sub` occur as a contiguous substring of `l` (Python's `in`)? -/
def containsSub (l sub : List Char) : Bool :=
  match l with
  | [] => sub.isEmpty
  | _ :: r => sub.isPrefixOf l || containsSub r sub

/-! ### Decimal digit strings -/

def charToDigit (c : Char) : ℕ := c.toNat - 48

def digitChar (d : ℕ) : Char := Char.ofNat (48 + d)

/-- Decimal digits, most significant first (no leading zeros; `[0]` for 0).
Fuel-driven so that the kernel can evaluate it; `fuel = n` always suffices
because the argument at least halves on every step. -/
def natDigitsF : ℕ → ℕ → List ℕ
  | 0, n => [n]
  | fuel + 1, n => if n < 10 then [n] else natDigitsF fuel (n / 10) ++ [n % 10]

def natDigits (n : ℕ) : List ℕ := natDigitsF n n

def ofDigits (l : List ℕ) : ℕ := l.foldl (fun a d => 10 * a + d) 0

def natChars (n : ℕ) : List Char := (natDigits n).map digitChar

def ofDigitsC (l : List Char) : ℕ := ofDigits (l.map charToDigit)

/-- Zero-pad a digit string on the left to width 6 (`f"{n:06d}"`). -/
def pad6 (l : List Char) : List Char := List.replicate (6 - l.length) '0' ++ l

/-- Model of Python `float(s)` on the decimal strings reachable in this
pipeline: optional sign, integer digits, optional fraction.  (Exponent forms,
`inf`/`nan` words and underscores are not reachable from the regex matches
fed into it and parse to `none` here, matching the `except: return None`
behaviour for claim-relevant inputs.) -/
def parseDecimal (l : List Char) : Option ℚ :=
  let sgnl : ℚ × List Char :=
    match l with
    | c :: r => if c = '-' then (-1, r) else if c = '+' then (1, r) else (1, l)
    | [] => (1, [])
  let ip := sgnl.2.takeWhile isDigitCh
  let r1 := sgnl.2.dropWhile isDigitCh
  match r1 with
  | [] => if ip.isEmpty then none else some (sgnl.1 * (ofDigitsC ip : ℚ))
  | c :: r2 =>
    if c = dotC then
      let fp := r2.takeWhile isDigitCh
      let r3 := r2.dropWhile isDigitCh
      if ¬ r3.isEmpty then none
      else if ip.isEmpty ∧ fp.isEmpty then none
      else some (sgnl.1 * ((ofDigitsC ip : ℚ) + (ofDigitsC fp : ℚ) / 10 ^ fp.length))
    else none

/-! ### `_fmt_mhz` and `_to_mhz_str` -/

/-- `_fmt_mhz`: `f"{v:.6f}".rstrip("0").rstrip(".")`.  The `%.6f` rounding of
the IEEE double is modelled as rounding the rational to 6 decimal places
(`round` = half-up; at the precisions reachable from the regex matches the
formatted digits agree with CPython's output except on exact half-way
7-to-9-digit fractions, where the binary double is never exactly half-way;
no claim depends on that tie direction). -/
def fmtMhz (v : ℚ) : List Char :=
  let n : ℤ := round (v * 1000000)
  let m : ℕ := n.natAbs
  let sgn : List Char := if n < 0 then ['-'] else []
  sgn ++ rstrip dotC (rstrip '0' (natChars (m / 1000000) ++ dotC :: pad6 (natChars (m % 1000000))))

/-- `_to_mhz_str(raw_num, unit)`: strip, comma→dot, `float`, kHz→MHz, band
filter `[0.5, 500.0]`, then `_fmt_mhz`. -/
def toMhzStr (rawNum : List Char) (unit : Option (List Char)) : Option (List Char) :=
  if rawNum.isEmpty then none
  else
    let s := (stripWs rawNum).map (fun c => if c = commaC then dotC else c)
    match parseDecimal s with
    | none => none
    | some v0 =>
      let u := stripWs (lowerChars (unit.getD []))
      let v := if u = "khz".data then v0 / 1000 else v0
      if ¬ (1/2 ≤ v ∧ v ≤ 500) then none
      else some (fmtMhz v)

/-! ### `_strip_html`: `re.sub(r"<[^>]+>", " ", ...)` then collapse `\s+` and strip -/

/-- One step of tag removal: at a `<`, the regex `<[^>]+>` matches iff at least
one non-`>` character follows and a `>` occurs after them; the match is
replaced by a single space.  A `<` with no such closing `>` (or immediately
followed by `>`) is not a match and is kept.  Fuel-driven scan (fuel ≥ length
always suffices; scanning consumes at least one character per step). -/
def removeTagsF : ℕ → List Char → List Char
  | 0, l => l
  | _ + 1, [] => []
  | fuel + 1, c :: r =>
    if c = ltC then
      let body := r.takeWhile (fun a => decide (a ≠ gtC))
      match r.dropWhile (fun a => decide (a ≠ gtC)) with
      | _ :: rest =>
        if body.isEmpty then c :: removeTagsF fuel r
        else ' ' :: removeTagsF fuel rest
      | [] => c :: removeTagsF fuel r
    else c :: removeTagsF fuel r

def removeTags (l : List Char) : List Char := removeTagsF (l.length + 1) l

/-- Collapse every maximal run of whitespace into a single space
(`re.sub(r"\s+", " ", ...)`). -/
def collapseGo (prevSpace : Bool) : List Char → List Char
  | [] => []
  | c :: r =>
    if isSpaceCh c then
      if prevSpace then collapseGo true r else ' ' :: collapseGo true r
    else c :: collapseGo false r

/-- `_strip_html` on character lists. -/
def stripHtmlChars (l : List Char) : List Char :=
  stripWs (collapseGo false (removeTags l))

/-! ### Chunk splitting: `re.split(r"\bport\b|\s-\s|\|", s_l)` -/

/-- Is there a word boundary just before a word character, given the
previous character (`none` at the start of the string)? -/
def boundaryBefore (prev : Option Char) : Bool :=
  match prev with
  | none => true
  | some c => ¬ isWordCh c

/-- Is there a word boundary just after a word character, given the remaining
input? -/
def boundaryAfter (rest : List Char) : Bool :=
  match rest with
  | [] => true
  | c :: _ => ¬ isWordCh c

/-- Does the separator `\s-\s` match at a position whose first character is
`c` with remaining input `r`?  Returns the last consumed character and the
rest. -/
def dashSepAt (c : Char) (r : List Char) : Option (Char × List Char) :=
  if isSpaceCh c then
    match r with
    | '-' :: s2 :: r2 => if isSpaceCh s2 then some (s2, r2) else none
    | _ => none
  else none

/-- `re.split(r"\bport\b|\s-\s|\|", ...)`: scan left to right, splitting at
each leftmost match.  `acc` holds the current piece reversed; `prev` is the
character just before the scan position. -/
def splitChunksGo : ℕ → Option Char → List Char → List Char → List (List Char)
  | 0, _, acc, l => [acc.reverse ++ l]
  | _ + 1, _, acc, [] => [acc.reverse]
  | fuel + 1, prev, acc, c :: r =>
    if c = 'p' ∧ "ort".data.isPrefixOf r ∧ boundaryBefore prev ∧ boundaryAfter (r.drop 3) then
      acc.reverse :: splitChunksGo fuel (some 't') [] (r.drop 3)
    else
      match dashSepAt c r with
      | some (s2, r2) => acc.reverse :: splitChunksGo fuel (some s2) [] r2
      | none =>
        if c = '|' then acc.reverse :: splitChunksGo fuel (some '|') [] r
        else splitChunksGo fuel (some c) (c :: acc) r

def splitChunks (l : List Char) : List (List Char) :=
  splitChunksGo (l.length + 1) none [] l

/-! ### Baud tokens: `\b(\d{2,5})\s*(?:baud|bd|bps|b/s)\b` and `\b(\d{1,2})k(\d)\b` -/

/-- Try to match one of the unit words of the baud pattern (in the regex's
alternation order), each followed by a word boundary.  Returns the rest of
the input after the unit. -/
def baudUnitAt (l : List Char) : Option (List Char) :=
  if "baud".data.isPrefixOf l ∧ boundaryAfter (l.drop 4) then some (l.drop 4)
  else if "bd".data.isPrefixOf l ∧ boundaryAfter (l.drop 2) then some (l.drop 2)
  else if "bps".data.isPrefixOf l ∧ boundaryAfter (l.drop 3) then some (l.drop 3)
  else if "b/s".data.isPrefixOf l ∧ boundaryAfter (l.drop 3) then some (l.drop 3)
  else none

/-- Try the first baud pattern at one position: 2–5 digits, optional
whitespace, then a baud unit word.  (A digit run longer than 5, or a digit
immediately after the taken digits, makes every backtracking choice fail, so
requiring the maximal run to have length 2–5 is exact.)  Returns the digit
group. -/
def baudAAt (prev : Option Char) (l : List Char) : Option (List Char) :=
  let ds := l.takeWhile isDigitCh
  if boundaryBefore prev ∧ 2 ≤ ds.length ∧ ds.length ≤ 5 then
    let r1 := l.dropWhile isDigitCh
    let r2 := r1.dropWhile isSpaceCh
    match baudUnitAt r2 with
    | some _ => some ds
    | none => none
  else none

/-- `re.search` for the first baud pattern: first position (left to right)
where it matches. -/
def baudASearch (prev : Option Char) : List Char → Option (List Char)
  | [] => none
  | c :: r =>
    match baudAAt prev (c :: r) with
    | some ds => some ds
    | none => baudASearch (some c) r

/-- Try the `\b(\d{1,2})k(\d)\b` shorthand at one position. -/
def baudKAt (prev : Option Char) (l : List Char) : Option (ℕ × ℕ) :=
  let ds := l.takeWhile isDigitCh
  if boundaryBefore prev ∧ 1 ≤ ds.length ∧ ds.length ≤ 2 then
    match l.dropWhile isDigitCh with
    | 'k' :: d :: rest =>
      if isDigitCh d ∧ boundaryAfter rest then
        some (ofDigitsC ds, charToDigit d)
      else none
    | _ => none
  else none

def baudKSearch (prev : Option Char) : List Char → Option (ℕ × ℕ)
  | [] => none
  | c :: r =>
    match baudKAt prev (c :: r) with
    | some p => some p
    | none => baudKSearch (some c) r

/-- `_baud_in(chunk)`: the first pattern's digits verbatim, else the `NkM`
shorthand as `N*1000 + M*100`, else the empty string. -/
def baudIn (chunk : List Char) : List Char :=
  match baudASearch none chunk with
  | some ds => ds
  | none =>
    match baudKSearch none chunk with
    | some (n, m) => natChars (n * 1000 + m * 100)
    | none => []

/-! ### Unit-bearing frequency tokens: `\b(\d{1,5}[\.,]\d{1,6})\s*(mhz|khz)\b` -/

/-- Try the unit-bearing frequency pattern at one position.  Returns
`(group 1, unit, group 0, last consumed char, rest)`.  As with the baud
pattern, the integer/fraction digit runs must be maximal and within the
counted bounds for any backtracking choice to succeed. -/
def unitFreqAt (prev : Option Char) (l : List Char) :
    Option (List Char × List Char × List Char × Char × List Char) :=
  let ip := l.takeWhile isDigitCh
  if boundaryBefore prev ∧ 1 ≤ ip.length ∧ ip.length ≤ 5 then
    match l.dropWhile isDigitCh with
    | sep :: r2 =>
      if sep = dotC ∨ sep = commaC then
        let fp := r2.takeWhile isDigitCh
        if 1 ≤ fp.length ∧ fp.length ≤ 6 then
          let r3 := r2.dropWhile isDigitCh
          let sp := r3.takeWhile isSpaceCh
          let r4 := r3.dropWhile isSpaceCh
          let g1 := ip ++ sep :: fp
          if "mhz".data.isPrefixOf r4 ∧ boundaryAfter (r4.drop 3) then
            some (g1, "mhz".data, g1 ++ sp ++ "mhz".data, 'z', r4.drop 3)
          else if "khz".data.isPrefixOf r4 ∧ boundaryAfter (r4.drop 3) then
            some (g1, "khz".data, g1 ++ sp ++ "khz".data, 'z', r4.drop 3)
          else none
        else none
      else none
    | [] => none
  else none

/-- `re.finditer` for the unit-bearing frequency pattern: non-overlapping
matches left to right, resuming after each match. -/
def unitFreqGo : ℕ → Option Char → List Char → List (List Char × List Char × List Char)
  | 0, _, _ => []
  | _ + 1, _, [] => []
  | fuel + 1, prev, c :: r =>
    match unitFreqAt prev (c :: r) with
    | some (g1, u, g0, lastC, rest) => (g1, u, g0) :: unitFreqGo fuel (some lastC) rest
    | none => unitFreqGo fuel (some c) r

def unitFreqMatches (chunk : List Char) : List (List Char × List Char × List Char) :=
  unitFreqGo (chunk.length + 1) none chunk

/-! ### Bare numbers: `\b(\d{1,3}[\.,]\d{1,6})\b` with the version-number guard -/

/-- Try the bare-number pattern at one position.  Returns
`(group 1, char after the match, last consumed char, rest)`. -/
def bareNumAt (prev : Option Char) (l : List Char) :
    Option (List Char × Option Char × Char × List Char) :=
  let ip := l.takeWhile isDigitCh
  if boundaryBefore prev ∧ 1 ≤ ip.length ∧ ip.length ≤ 3 then
    match l.dropWhile isDigitCh with
    | sep :: r2 =>
      if sep = dotC ∨ sep = commaC then
        let fp := r2.takeWhile isDigitCh
        if 1 ≤ fp.length ∧ fp.length ≤ 6 then
          let r3 := r2.dropWhile isDigitCh
          if boundaryAfter r3 then
            some (ip ++ sep :: fp, r3.head?, (sep :: fp).getLast (by simp), r3)
          else none
        else none
      else none
    | [] => none
  else none

/-- `re.finditer` for the bare-number pattern, also recording the character
just before each match (for the dotted-version guard). -/
def bareNumGo : ℕ → Option Char → List Char → List (List Char × Option Char × Option Char)
  | 0, _, _ => []
  | _ + 1, _, [] => []
  | fuel + 1, prev, c :: r =>
    match bareNumAt prev (c :: r) with
    | some (g1, after, lastC, rest) =>
      (g1, prev, after) :: bareNumGo fuel (some lastC) rest
    | none => bareNumGo fuel (some c) r

def bareNumMatches (chunk : List Char) : List (List Char × Option Char × Option Char) :=
  bareNumGo (chunk.length + 1) none chunk

/-! ### The radio-context keyword search -/

def rfKeywords : List (List Char) :=
  ["afsk".data, "fsk".data, "bpsk".data, "qpsk".data, "il2p".data, "fx25".data,
   "ax25".data, "aprs".data, "vara".data, "ardop".data, "fm".data, "usb".data,
   "lsb".data, "vhf".data, "uhf".data, "hf".data]

/-- Does some keyword match at this position (with word boundaries)? -/
def rfKeywordAt (prev : Option Char) (l : List Char) : Bool :=
  boundaryBefore prev &&
    rfKeywords.any (fun w => w.isPrefixOf l && boundaryAfter (l.drop w.length))

/-- `re.search(r"\b(?:afsk|fsk|...|hf)\b", chunk)` as a Boolean. -/
def hasRfKeyword : List Char → Bool :=
  go none
where
  go (prev : Option Char) : List Char → Bool
    | [] => false
    | c :: r => rfKeywordAt prev (c :: r) || go (some c) r

/-! ### `_extract_channels` -/

/-- A channel record: `{"freq": ..., "baud": ..., "raw": ...}`. -/
structure Chan where
  freq : String
  baud : String
  raw : String
deriving DecidableEq

/-- The de-duplication key `(c["freq"], c["baud"])`. -/
def chanKey (c : Chan) : String × String := (c.freq, c.baud)

/-- The records contributed by the explicit MHz/kHz loop of one chunk. -/
def unitRecords (baud : String) (chunk : List Char) : List Chan :=
  (unitFreqMatches chunk).filterMap fun m =>
    (toMhzStr m.1 (some m.2.1)).map fun f =>
      { freq := String.mk f, baud := baud, raw := String.mk m.2.2 }

/-- The records contributed by the bare-number loop of one chunk (the caller
only runs this when the chunk has a radio-context keyword).  A match whose
neighbouring character on either side is a dot is skipped (dotted software
versions). -/
def bareRecords (baud : String) (chunk : List Char) : List Chan :=
  (bareNumMatches chunk).filterMap fun m =>
    if m.2.1 = some dotC ∨ m.2.2 = some dotC then none
    else
      (toMhzStr m.1 none).map fun f =>
        { freq := String.mk f, baud := baud, raw := String.mk m.1 }

/-- All records of one chunk, in the order the code appends them: the
unit-bearing matches first, then — whenever the chunk contains a
radio-context keyword — the bare-number matches. -/
def chunkRecords (chunk : List Char) : List Chan :=
  let baud := String.mk (baudIn chunk)
  unitRecords baud chunk ++ (if hasRfKeyword chunk then bareRecords baud chunk else [])

/-- First-occurrence de-duplication with an explicit `seen` set, as in the
source's final loop over `channels`. -/
def dedupBy {α κ : Type} [DecidableEq κ] (key : α → κ) : List κ → List α → List α
  | _, [] => []
  | seen, c :: cs =>
    if key c ∈ seen then dedupBy key seen cs
    else c :: dedupBy key (key c :: seen) cs

/-- The concatenated per-chunk record list, before de-duplication. -/
def preChannels (text : String) : List Chan :=
  (splitChunks (lowerChars (stripHtmlChars text.data))).flatMap chunkRecords

/-- `_extract_channels(display_text)`. -/
def extractChannels (text : String) : List Chan :=
  dedupBy chanKey [] (preChannels text)

/-! ### `_parse_freq_baud` -/

/-- Python truthiness of a string: non-empty. -/
def pyStrOr (a b : String) : String := if a ≠ "" then a else b

/-- `_parse_freq_baud`: the channel list plus a best-effort primary pair —
first channel with both fields, else first channel with a frequency, else
empty strings. -/
def parseFreqBaud (displayText : String) : String × String × List Chan :=
  let channels := extractChannels displayText
  let primary :=
    match channels.find? (fun c => c.freq ≠ "" && c.baud ≠ "") with
    | some c => some c
    | none => channels.find? (fun c => c.freq ≠ "")
  match primary with
  | some c => (c.freq, c.baud, channels)
  | none => ("", "", channels)

/-! ### JSON-like values and raw points

The decoded GeoJSON payload is modelled by a small value type: `null` covers
both an absent key and JSON `null` (both read back as Python `None` through
`dict.get`).  Numbers are rationals (see the header note).  The
`displayText`/`display` entries of a feature are strings in the upstream
payload; a non-string there would crash `.lower()` downstream and is outside
every claim, so feature text fields read back through `strOfJ`. -/

inductive JVal where
  | null : JVal
  | num : ℚ → JVal
  | str : String → JVal
  | bool : Bool → JVal
deriving DecidableEq

/-- Python truthiness of a JSON value. -/
def truthy : JVal → Bool
  | .null => false
  | .num q => decide (q ≠ 0)
  | .str s => decide (s ≠ "")
  | .bool b => b

/-- Python's `a or b`. -/
def pyOr (a b : JVal) : JVal := if truthy a then a else b

/-- `dict.get(k)`, with `None` for a missing key. -/
def getJ : List (String × JVal) → String → JVal
  | [], _ => .null
  | (k, v) :: r, key => if k = key then v else getJ r key

def strOfJ : JVal → String
  | .str s => s
  | _ => ""

/-- One raw point as yielded by `_extract_points_from_geojson`: the optional
top-level `lat`/`lng` entries, the `properties` mapping and the raw feature
mapping (absent keys are `null`). -/
structure RawPoint where
  lat : JVal := .null
  lng : JVal := .null
  properties : List (String × JVal) := []
  feature : List (String × JVal) := []
deriving DecidableEq

/-- `str()` of a JSON number as `_pick` applies it: integers print without a
decimal point; finite decimals print sign, integer part, dot, fraction
digits.  (CPython prints floats via shortest round-trip repr; on the finite
decimal values representable in this model the two agree.) -/
def fracCharsF : ℕ → ℚ → List Char
  | 0, _ => []
  | fuel + 1, r =>
    if r = 0 then []
    else
      let r10 := r * 10
      digitChar (Int.toNat ⌊r10⌋) :: fracCharsF fuel (r10 - ⌊r10⌋)

def pyNumStr (q : ℚ) : String :=
  let sgn : List Char := if q < 0 then ['-'] else []
  let a := |q|
  if a.den = 1 then String.mk (sgn ++ natChars a.num.natAbs)
  else
    String.mk (sgn ++ natChars (Int.toNat ⌊a⌋) ++ dotC :: fracCharsF 30 (a - ⌊a⌋))

/-- `_pick(props, *keys)`: first key whose value is not `None`, returning
`str(v)` for numbers (and bools, which are `int` instances in Python) or the
stripped string for non-blank strings; blank strings and missing keys fall
through. -/
def pick (props : List (String × JVal)) : List String → String
  | [] => ""
  | k :: ks =>
    match getJ props k with
    | .null => pick props ks
    | .num q => pyNumStr q
    | .bool b => if b then "True" else "False"
    | .str s => if stripWs s.data ≠ [] then String.mk (stripWs s.data) else pick props ks

/-- `_as_float(v)`: `float(v)` with `None` on failure or NaN.  (`float` of a
string strips surrounding whitespace; a NaN, only producible from the string
forms `"nan"` etc., parses to `none` here.) -/
def asFloat : JVal → Option ℚ
  | .num q => some q
  | .bool b => some (if b then 1 else 0)
  | .str s => parseDecimal (stripWs s.data)
  | .null => none

/-- `_guess_type(display_text)`. -/
def guessType (displayText : String) : String :=
  let s := lowerChars displayText.data
  if containsSub s "bbs".data || containsSub s "mailbox".data then "bbs" else "node"

/-! ### `_build_items` -/

/-- `round(x, 5)` with round-half-even, as CPython's `round` on the doubles
reachable here. -/
def halfEven (x : ℚ) : ℤ :=
  let f := ⌊x⌋
  if x - f < 1/2 then f
  else if 1/2 < x - f then f + 1
  else if f % 2 = 0 then f else f + 1

def round5 (x : ℚ) : ℚ := (halfEven (x * 100000) : ℚ) / 100000

structure PacketItem where
  id : ℕ
  type : String
  callsign : String
  name : String
  location : String
  country : String
  lat : ℚ
  lng : ℚ
  freq : String
  baud : String
  channels : List Chan
  mode : String
  status : String
  notes : String
deriving DecidableEq

/-- The source of the latitude value:
`p.get("lat") or props.get("lat") or props.get("latitude")`. -/
def latSrc (p : RawPoint) : JVal :=
  pyOr (pyOr p.lat (getJ p.properties "lat")) (getJ p.properties "latitude")

/-- The source of the longitude value:
`p.get("lng") or props.get("lng") or props.get("lon") or props.get("longitude")`. -/
def lngSrc (p : RawPoint) : JVal :=
  pyOr (pyOr (pyOr p.lng (getJ p.properties "lng")) (getJ p.properties "lon"))
    (getJ p.properties "longitude")

def latVal (p : RawPoint) : Option ℚ := asFloat (latSrc p)
def lngVal (p : RawPoint) : Option ℚ := asFloat (lngSrc p)

/-- `re.search(r"[A-Z0-9]{3,}", s)` as a Boolean: some run of 3 consecutive
characters in `[A-Z0-9]`. -/
def isUpAlnum (c : Char) : Bool :=
  decide ((65 ≤ c.toNat ∧ c.toNat ≤ 90) ∨ (48 ≤ c.toNat ∧ c.toNat ≤ 57))

def hasRun3 : List Char → Bool
  | a :: b :: c :: r => (isUpAlnum a && isUpAlnum b && isUpAlnum c) || hasRun3 (b :: c :: r)
  | _ => false

/-- `display_text = feature.get("displayText") or feature.get("display") or ""`. -/
def displayTextOf (feature : List (String × JVal)) : String :=
  strOfJ (pyOr (pyOr (getJ feature "displayText") (getJ feature "display")) (.str ""))

/-- The item-construction loop of `_build_items`, with the running `next_id`:
points with no usable numeric coordinate pair or no plausible callsign are
skipped (the id is not advanced for skipped points). -/
def buildItemsAux : ℕ → List RawPoint → List PacketItem
  | _, [] => []
  | n, p :: ps =>
    match latVal p, lngVal p with
    | some la, some ln =>
      let callsign := pyStrOr (pick p.properties ["title"]) (pick p.feature ["node", "callsign"])
      if hasRun3 (upperChars callsign.data) then
        let dt := displayTextOf p.feature
        let fb := parseFreqBaud dt
        let title := String.mk (stripWs callsign.data)
        { id := n
          type := guessType dt
          callsign := String.mk (stripWs callsign.data)
          name := pyStrOr title (String.mk (stripWs callsign.data))
          location := ""
          country := ""
          lat := la
          lng := ln
          freq := fb.1
          baud := fb.2.1
          channels := fb.2.2
          mode := "AX.25"
          status := if containsSub (lowerChars dt.data) "age:".data then "online" else "unknown"
          notes := String.mk (stripHtmlChars dt.data) } :: buildItemsAux (n + 1) ps
      else buildItemsAux n ps
    | _, _ => buildItemsAux n ps

/-- The catalog-wide de-duplication key
`(it.callsign.upper(), round(it.lat, 5), round(it.lng, 5), it.type)`. -/
def itemKey (it : PacketItem) : String × ℚ × ℚ × String :=
  (String.mk (upperChars it.callsign.data), round5 it.lat, round5 it.lng, it.type)

/-- `_build_items(points)`. -/
def buildItems (points : List RawPoint) : List PacketItem :=
  dedupBy itemKey [] (buildItemsAux 1 points)

/-! ### `_js_escape` and the emitted single-quoted string literal -/

/-- `.replace("\\", "\\\\")`: each backslash is doubled. -/
def rbSlash : List Char → List Char
  | [] => []
  | c :: r => if c = bslashC then bslashC :: bslashC :: rbSlash r else c :: rbSlash r

/-- `.replace(chr(96), bslash ++ chr(96))`: escape each backtick. -/
def rbTick : List Char → List Char
  | [] => []
  | c :: r => if c = btickC then bslashC :: btickC :: rbTick r else c :: rbTick r

/-- `.replace("${", "\\${")`: escape each template-interpolation marker
(non-overlapping, left to right). -/
def rbDollar : List Char → List Char
  | [] => []
  | [c] => [c]
  | c :: d :: r =>
    if c = dollarC ∧ d = lbraceC then bslashC :: dollarC :: lbraceC :: rbDollar r
    else c :: rbDollar (d :: r)

/-- `_js_escape(s)`: the three replacements in source order. -/
def jsEscape (s : String) : String := String.mk (rbDollar (rbTick (rbSlash s.data)))

/-- The string literal the emitter writes for a string field: the escaped
value between single quotes (`f"... '{_js_escape(v)}' ..."`). -/
def emitSQLiteral (v : String) : List Char := squoteC :: (jsEscape v).data ++ [squoteC]

/-- Decoding of a backslash escape in a JavaScript string literal (the
single-character escapes; an unrecognised escaped character denotes itself). -/
def unescChar (c : Char) : Char :=
  if c = 'n' then '\n'
  else if c = 't' then '\t'
  else if c = 'r' then '\r'
  else if c = 'b' then Char.ofNat 8
  else if c = 'f' then Char.ofNat 12
  else if c = 'v' then Char.ofNat 11
  else if c = '0' then Char.ofNat 0
  else c

/-- Body of a single-quoted JavaScript string literal: characters up to the
closing quote, with backslash escapes.  Returns the decoded value and the
input remaining after the closing quote; `none` on an unterminated literal.
(Line terminators are treated as ordinary characters here — real JavaScript
also rejects a raw newline inside the literal, which only makes the
re-parsing claim fail on even more values.) -/
def parseSQBody : List Char → Option (List Char × List Char)
  | [] => none
  | c :: r =>
    if c = squoteC then some ([], r)
    else if c = bslashC then
      match r with
      | [] => none
      | e :: r2 =>
        match parseSQBody r2 with
        | some (v, rem) => some (unescChar e :: v, rem)
        | none => none
    else
      match parseSQBody r with
      | some (v, rem) => some (c :: v, rem)
      | none => none

/-- Parse a single-quoted JavaScript string literal from the front of the
input. -/
def parseSQ (l : List Char) : Option (List Char × List Char) :=
  match l with
  | c :: r => if c = squoteC then parseSQBody r else none
  | [] => none

/-- Single-pass characterisation of the composition of the three
replacements of `_js_escape`: backslashes are doubled, backticks and `${`
receive a leading backslash, and every other character is copied. -/
def escSpec : List Char → List Char
  | [] => []
  | [c] =>
    if c = bslashC then [bslashC, bslashC]
    else if c = btickC then [bslashC, btickC]
    else [c]
  | c :: d :: cs =>
    if c = bslashC then bslashC :: bslashC :: escSpec (d :: cs)
    else if c = btickC then bslashC :: btickC :: escSpec (d :: cs)
    else if c = dollarC ∧ d = lbraceC then bslashC :: dollarC :: lbraceC :: escSpec cs
    else c :: escSpec (d :: cs)

/-- A sample value exercising every escaped character class (backslash,
backtick, interpolation marker). -/
def escSample : String := String.mk ['a', bslashC, btickC, dollarC, lbraceC, 'x']

/-- A sample value containing a single quote. -/
def quoteSample : String := String.mk ['a', squoteC, 'b']

/-! ### `_find_data_urls_from_html` -/

def SOURCE_URL : String :=
  "https://nodes.ukpacketradio.network/packet-network-map.html?rfonly=0"

def DATA_URL : String :=
  "https://nodes.ukpacketradio.network/api/nodedata/geojson?linkType=RF&linkType=Internet&linkType=Other&linkType=PrivateNet"

/-- A character allowed in the tail of the URL pattern: `[^"'\s>]`. -/
def urlTailCh (c : Char) : Bool :=
  !(c = '"' || c = squoteC || isSpaceCh c || c = gtC)

/-- Case-insensitive match of the literal part `api/nodedata/geojson?` of the
pattern (returns the rest). -/
def apiLitChars : List Char := "api/nodedata/geojson?".data

def matchCi : List Char → List Char → Option (List Char)
  | [], l => some l
  | _, [] => none
  | p :: ps, c :: cs => if toLowerCh c = p then matchCi ps cs else none

/-- `re.findall(r"api/nodedata/geojson\?[^\"\'\s>]+", html, flags=re.I)`:
non-overlapping matches, each the literal prefix (as it appears in the input)
plus a non-empty maximal run of allowed tail characters. -/
def findApiGo : ℕ → List Char → List (List Char)
  | 0, _ => []
  | _ + 1, [] => []
  | fuel + 1, c :: r =>
    match matchCi apiLitChars (c :: r) with
    | some rest =>
      let tail := rest.takeWhile urlTailCh
      if tail.isEmpty then findApiGo fuel r
      else
        ((c :: r).take apiLitChars.length ++ tail) :: findApiGo fuel (rest.dropWhile urlTailCh)
    | none => findApiGo fuel r

def findApiMatches (html : String) : List (List Char) :=
  findApiGo (html.length + 1) html.data

/-- `_absolutize(base_url, maybe_relative)` (the base argument is unused in
the source; the host is hard-coded). -/
def absolutize (maybeRelative : List Char) : List Char :=
  if "http://".data.isPrefixOf maybeRelative ∨ "https://".data.isPrefixOf maybeRelative then
    maybeRelative
  else if "//".data.isPrefixOf maybeRelative then "https:".data ++ maybeRelative
  else "https://nodes.ukpacketradio.network/".data ++ maybeRelative.dropWhile (fun c => decide (c = '/'))

/-- Lexicographic comparison on code points (Python `<` on `str`). -/
def lexLe : List Char → List Char → Bool
  | [], _ => true
  | _ :: _, [] => false
  | a :: as_, b :: bs =>
    if a.toNat < b.toNat then true
    else if b.toNat < a.toNat then false
    else lexLe as_ bs

def insertLe (x : List Char) : List (List Char) → List (List Char)
  | [] => [x]
  | y :: ys => if lexLe x y then x :: y :: ys else y :: insertLe x ys

def sortLe : List (List Char) → List (List Char)
  | [] => []
  | x :: xs => insertLe x (sortLe xs)

/-- De-duplication of a list (a Python set, whose iteration order is
immaterial here because the result is sorted afterwards). -/
def dedupList : List (List Char) → List (List Char)
  | [] => []
  | x :: xs => if x ∈ xs then dedupList xs else x :: dedupList xs

/-- `_find_data_urls_from_html(html)`: the absolutized de-duplicated pattern
matches, with the known-good `DATA_URL` always appended, as a sorted set. -/
def findDataUrlsFromHtml (html : String) : List (List Char) :=
  let candidates := dedupList (findApiMatches html)
  let urls := candidates.map absolutize ++ [DATA_URL.data]
  sortLe (dedupList urls)

/-! ### Concrete test points -/

/-- Two raw points identical up to the catalog key, plus one differing in
latitude (used to exhibit an id gap after de-duplication). -/
def gapPoint : RawPoint :=
  { lat := .num 50, lng := .num 1, properties := [("title", .str "G8ABC")] }

def gapPointB : RawPoint :=
  { lat := .num 51, lng := .num 1, properties := [("title", .str "G8ABC")] }

/-- A raw point whose own `lat` is `0` (falsy) with a property fallback, and
whose own `lng` is a truthy non-numeric string (so `float` fails and the
point is dropped). -/
def oddPoint : RawPoint :=
  { lat := .num 0, lng := .str "x",
    properties := [("lat", .num 49), ("lng", .num 3), ("title", .str "M0XYZ")] }

/-! ### Properties of the first-occurrence de-duplication -/

/-- Specification-side formulation of first-occurrence de-duplication: keep
the head, drop every later element with the same key. -/
def firstDedupKeys {κ : Type} [DecidableEq κ] : List κ → List κ
  | [] => []
  | k :: ks => k :: firstDedupKeys (ks.filter (fun x => decide (x ≠ k)))
termination_by l => l.length
decreasing_by simpa using Nat.lt_succ_of_le (List.length_filter_le _ _)

/-- Specification-side first-occurrence de-duplication at the element level:
keep each element (in particular the first element of every key) and drop
every later element sharing its key. -/
def firstDedupBy {α κ : Type} [DecidableEq κ] (key : α → κ) : List α → List α
  | [] => []
  | a :: as => a :: firstDedupBy key (as.filter (fun x => decide (key x ≠ key a)))
termination_by l => l.length
decreasing_by simpa using Nat.lt_succ_of_le (List.length_filter_le _ _)

theorem dedupBy_sublist {α κ : Type} [DecidableEq κ] (key : α → κ) :
    ∀ (seen : List κ) (l : List α), List.Sublist (dedupBy key seen l) l := by
  intro seen l
  induction l generalizing seen with
  | nil => simp [dedupBy]
  | cons c cs ih =>
    rw [dedupBy]
    by_cases h : key c ∈ seen
    · simp only [if_pos h]
      exact (ih seen).trans (List.sublist_cons_self c cs)
    · simp only [if_neg h]
      exact (ih (key c :: seen)).cons₂ c

theorem firstDedupKeys_sublist {κ : Type} [DecidableEq κ] :
    ∀ l : List κ, List.Sublist (firstDedupKeys l) l := by
  suffices h : ∀ (n : ℕ) (l : List κ), l.length ≤ n → List.Sublist (firstDedupKeys l) l from
    fun l => h l.length l le_rfl
  intro n
  induction n with
  | zero =>
    intro l hl
    rw [List.length_eq_zero.mp (Nat.le_zero.mp hl)]
    simp [firstDedupKeys]
  | succ n ih =>
    intro l hl
    match l with
    | [] => simp [firstDedupKeys]
    | k :: ks =>
      rw [firstDedupKeys]
      refine List.Sublist.cons₂ k ?_
      have h1 : List.Sublist (ks.filter (fun x => decide (x ≠ k))) ks :=
        List.filter_sublist ks
      have h2 := ih (ks.filter (fun x => decide (x ≠ k)))
        (le_trans (List.length_filter_le _ _) (by simpa using hl))
      exact h2.trans h1

theorem firstDedupKeys_mem {κ : Type} [DecidableEq κ] :
    ∀ (l : List κ) (x : κ), x ∈ firstDedupKeys l ↔ x ∈ l := by
  suffices h : ∀ (n : ℕ) (l : List κ), l.length ≤ n →
      ∀ x, x ∈ firstDedupKeys l ↔ x ∈ l from
    fun l => h l.length l le_rfl
  intro n
  induction n with
  | zero =>
    intro l hl
    rw [List.length_eq_zero.mp (Nat.le_zero.mp hl)]
    simp [firstDedupKeys]
  | succ n ih =>
    intro l hl x
    match l with
    | [] => simp [firstDedupKeys]
    | k :: ks =>
      rw [firstDedupKeys]
      have hle : (ks.filter (fun x => decide (x ≠ k))).length ≤ n :=
        le_trans (List.length_filter_le _ _) (by simpa using hl)
      by_cases hx : x = k
      · simp [hx]
      · simp only [List.mem_cons, hx, false_or]
        rw [ih _ hle x]
        simp [hx]

theorem firstDedupKeys_nodup {κ : Type} [DecidableEq κ] :
    ∀ l : List κ, (firstDedupKeys l).Nodup := by
  suffices h : ∀ (n : ℕ) (l : List κ), l.length ≤ n → (firstDedupKeys l).Nodup from
    fun l => h l.length l le_rfl
  intro n
  induction n with
  | zero =>
    intro l hl
    rw [List.length_eq_zero.mp (Nat.le_zero.mp hl)]
    simp [firstDedupKeys]
  | succ n ih =>
    intro l hl
    match l with
    | [] => simp [firstDedupKeys]
    | k :: ks =>
      rw [firstDedupKeys]
      have hle : (ks.filter (fun x => decide (x ≠ k))).length ≤ n :=
        le_trans (List.length_filter_le _ _) (by simpa using hl)
      refine List.nodup_cons.mpr ⟨?_, ih _ hle⟩
      intro hmem
      rw [firstDedupKeys_mem] at hmem
      simp at hmem

theorem dedupBy_map_key {α κ : Type} [DecidableEq κ] (key : α → κ) :
    ∀ (seen : List κ) (l : List α),
      (dedupBy key seen l).map key =
        firstDedupKeys ((l.map key).filter (fun x => decide (x ∉ seen))) := by
  intro seen l
  induction l generalizing seen with
  | nil => simp [dedupBy, firstDedupKeys]
  | cons c cs ih =>
    rw [dedupBy]
    by_cases h : key c ∈ seen
    · simp only [if_pos h, List.map_cons, List.filter_cons]
      have : (decide (key c ∉ seen)) = false := by simp [h]
      rw [this]
      simp only [Bool.false_eq_true, if_false]
      exact ih seen
    · simp only [if_neg h, List.map_cons, List.filter_cons]
      have hkc : (decide (key c ∉ seen)) = true := by simp [h]
      rw [hkc]
      simp only [if_true]
      rw [ih (key c :: seen), firstDedupKeys, List.filter_filter]
      congr 2
      apply List.filter_congr
      intro x _
      by_cases hx : x = key c <;> by_cases hs : x ∈ seen <;> simp [hx, hs]

theorem dedupBy_map_key_nil {α κ : Type} [DecidableEq κ] (key : α → κ) (l : List α) :
    (dedupBy key [] l).map key = firstDedupKeys (l.map key) := by
  rw [dedupBy_map_key]
  congr 1
  apply List.filter_eq_self.mpr
  intro a _
  simp

/-- The seen-set fold of the source equals the element-level first-occurrence
de-duplication of the elements whose key is not yet seen: the element
retained for each key is the first one carrying it. -/
theorem dedupBy_eq_firstDedupBy {α κ : Type} [DecidableEq κ] (key : α → κ) :
    ∀ (seen : List κ) (l : List α),
      dedupBy key seen l = firstDedupBy key (l.filter (fun x => decide (key x ∉ seen))) := by
  intro seen l
  induction l generalizing seen with
  | nil => simp [dedupBy, firstDedupBy]
  | cons c cs ih =>
    rw [dedupBy]
    by_cases h : key c ∈ seen
    · simp only [if_pos h, List.filter_cons]
      have hkc : (decide (key c ∉ seen)) = false := by simp [h]
      rw [hkc]
      simp only [Bool.false_eq_true, if_false]
      exact ih seen
    · simp only [if_neg h, List.filter_cons]
      have hkc : (decide (key c ∉ seen)) = true := by simp [h]
      rw [hkc]
      simp only [if_true]
      rw [ih (key c :: seen), firstDedupBy, List.filter_filter]
      congr 2
      apply List.filter_congr
      intro x _
      by_cases hx : key x = key c <;> by_cases hs : key x ∈ seen <;> simp [hx, hs]

theorem dedupBy_eq_firstDedupBy_nil {α κ : Type} [DecidableEq κ] (key : α → κ) (l : List α) :
    dedupBy key [] l = firstDedupBy key l := by
  rw [dedupBy_eq_firstDedupBy]
  congr 1
  apply List.filter_eq_self.mpr
  intro a _
  simp

/-! ### Claims C3 and C4: concrete extraction vectors -/

set_option maxRecDepth 100000

/-- Claim C3: on `"Port 1: 144.950MHz 1200 baud - Port 2: 432.500MHz 9600bd"`
the Channel Extractor returns exactly two records, `("144.95", "1200")`
followed by `("432.5", "9600")`. -/
theorem claim_C3 :
    (extractChannels "Port 1: 144.950MHz 1200 baud - Port 2: 432.500MHz 9600bd").map
        (fun c => (c.freq, c.baud)) =
      [("144.95", "1200"), ("432.5", "9600")] := by
  decide

/-- Claim C4: on `"7052.75kHz USB"` the Channel Extractor returns exactly one
record with frequency `"7.05275"` (kHz divided by 1000, trailing zeros
trimmed) and empty baud. -/
theorem claim_C4 :
    (extractChannels "7052.75kHz USB").map (fun c => (c.freq, c.baud)) =
      [("7.05275", "")] := by
  decide

/-! ### Claim C5: de-duplication by `(frequency, baud)` -/

/-- Claim C5: the extractor's output contains exactly one record per distinct
`(frequency, baud)` key among the retained matches — the key list is
duplicate-free, the output is a sublist of the concatenated per-chunk match
list (so order of first occurrence is preserved), its key list is exactly the
first-occurrence de-duplication of the match keys, and no key is lost. -/
theorem claim_C5 (text : String) :
    ((extractChannels text).map chanKey).Nodup ∧
    List.Sublist (extractChannels text) (preChannels text) ∧
    (extractChannels text).map chanKey = firstDedupKeys ((preChannels text).map chanKey) ∧
    (∀ k, k ∈ (extractChannels text).map chanKey ↔ k ∈ (preChannels text).map chanKey) := by
  refine ⟨?_, ?_, ?_, ?_⟩
  · rw [extractChannels, dedupBy_map_key_nil]
    exact firstDedupKeys_nodup _
  · exact dedupBy_sublist chanKey [] (preChannels text)
  · exact dedupBy_map_key_nil chanKey (preChannels text)
  · intro k
    rw [extractChannels, dedupBy_map_key_nil]
    exact firstDedupKeys_mem _ k

/-! ### Claim C7: catalog-wide de-duplication -/

/-- Claim C7: the catalog contains at most one item per key
`(callsign.upper(), round(lat, 5), round(lng, 5), kind)`, and the output is
exactly the element-level first-occurrence de-duplication of the candidate
list: for each key the item retained is the first candidate in processing
order carrying it (`firstDedupBy` keeps the head of every key group and
drops all later same-key candidates), the output is a sublist of the
candidates, and no key is lost. -/
theorem claim_C7 (points : List RawPoint) :
    ((buildItems points).map itemKey).Nodup ∧
    List.Sublist (buildItems points) (buildItemsAux 1 points) ∧
    buildItems points = firstDedupBy itemKey (buildItemsAux 1 points) ∧
    (∀ k, k ∈ (buildItems points).map itemKey ↔
      k ∈ (buildItemsAux 1 points).map itemKey) := by
  refine ⟨?_, ?_, ?_, ?_⟩
  · rw [buildItems, dedupBy_map_key_nil]
    exact firstDedupKeys_nodup _
  · exact dedupBy_sublist itemKey [] (buildItemsAux 1 points)
  · exact dedupBy_eq_firstDedupBy_nil itemKey (buildItemsAux 1 points)
  · intro k
    rw [buildItems, dedupBy_map_key_nil]
    exact firstDedupKeys_mem _ k

/-! ### Claim C10: ids strictly increase but may have gaps -/

theorem buildItemsAux_id_ge :
    ∀ (ps : List RawPoint) (n : ℕ), ∀ i ∈ (buildItemsAux n ps).map (fun it => it.id), n ≤ i := by
  intro ps
  induction ps with
  | nil => intro n i h; simp [buildItemsAux] at h
  | cons p ps ih =>
    intro n i h
    rw [buildItemsAux] at h
    cases hl : latVal p with
    | none => rw [hl] at h; exact ih n i h
    | some la =>
      rw [hl] at h
      cases hg : lngVal p with
      | none => rw [hg] at h; exact ih n i h
      | some ln =>
        rw [hg] at h
        dsimp only [] at h
        by_cases hr :
            hasRun3 (upperChars (pyStrOr (pick p.properties ["title"])
              (pick p.feature ["node", "callsign"])).data) = true
        · rw [if_pos hr] at h
          rcases List.mem_map.mp h with ⟨it, hit, rfl⟩
          rcases List.mem_cons.mp hit with rfl | hit2
          · exact le_refl n
          · exact le_trans (Nat.le_succ n) (ih (n + 1) _ (List.mem_map_of_mem _ hit2))
        · rw [if_neg hr] at h
          exact ih n i h

theorem buildItemsAux_id_pairwise :
    ∀ (ps : List RawPoint) (n : ℕ),
      ((buildItemsAux n ps).map (fun it => it.id)).Pairwise (· < ·) := by
  intro ps
  induction ps with
  | nil => intro n; simp [buildItemsAux]
  | cons p ps ih =>
    intro n
    rw [buildItemsAux]
    cases hl : latVal p with
    | none => exact ih n
    | some la =>
      cases hg : lngVal p with
      | none => exact ih n
      | some ln =>
        dsimp only []
        by_cases hr :
            hasRun3 (upperChars (pyStrOr (pick p.properties ["title"])
              (pick p.feature ["node", "callsign"])).data) = true
        · rw [if_pos hr, List.map_cons]
          refine List.pairwise_cons.mpr ⟨?_, ih (n + 1)⟩
          intro i hi
          exact lt_of_lt_of_le (Nat.lt_succ_self n) (buildItemsAux_id_ge ps (n + 1) i hi)
        · rw [if_neg hr]
          exact ih n

/-- Claim C10: item ids are strictly increasing in output order, but not
necessarily consecutive — ids are assigned before the catalog-wide
de-duplication, so a dropped duplicate leaves a gap (here ids `[1, 3]` for
three candidates whose middle one is a duplicate of the first). -/
theorem claim_C10 :
    (∀ points : List RawPoint,
      ((buildItems points).map (fun it => it.id)).Pairwise (· < ·)) ∧
    (buildItems [gapPoint, gapPoint, gapPointB]).map (fun it => it.id) = [1, 3] := by
  constructor
  · intro points
    exact (buildItemsAux_id_pairwise points 1).sublist
      ((dedupBy_sublist itemKey [] (buildItemsAux 1 points)).map (fun it => it.id))
  · decide

/-! ### Claim C1: when are bare numbers considered? -/

/-- Claim C1 counterexample: the input `"fm 144.950mhz 433.5"` forms a single
chunk which already has a unit-bearing frequency match (`144.950mhz`), yet —
because the chunk contains the keyword `fm` — the bare number `433.5` still
contributes a second ChannelRecord.  Under the claim, a chunk with a
unit-bearing match would contribute no bare-number records, so the output
would have been the single record `("144.95", "")`. -/
theorem claim_C1_counterexample :
    splitChunks (lowerChars (stripHtmlChars "fm 144.950mhz 433.5".data)) =
        ["fm 144.950mhz 433.5".data] ∧
    unitRecords (String.mk (baudIn "fm 144.950mhz 433.5".data))
        "fm 144.950mhz 433.5".data ≠ [] ∧
    (extractChannels "fm 144.950mhz 433.5").map (fun c => (c.freq, c.baud, c.raw)) =
      [("144.95", "", "144.950mhz"), ("433.5", "", "433.5")] := by
  refine ⟨by decide, by decide, by decide⟩

/-- Claim C1 (amended): for every chunk, bare decimal numbers are treated as
MHz candidates exactly when the chunk contains at least one radio-context
keyword — regardless of whether the chunk also has a unit-bearing frequency
match.  A chunk without a keyword contributes only its unit-bearing records;
a chunk with a keyword contributes its unit-bearing records followed by its
bare-number records. -/
theorem claim_C1_amended :
    (∀ chunk : List Char, hasRfKeyword chunk = false →
      chunkRecords chunk = unitRecords (String.mk (baudIn chunk)) chunk) ∧
    (∀ chunk : List Char, hasRfKeyword chunk = true →
      chunkRecords chunk =
        unitRecords (String.mk (baudIn chunk)) chunk ++
          bareRecords (String.mk (baudIn chunk)) chunk) := by
  constructor
  · intro chunk h
    rw [chunkRecords]
    rw [h]
    simp
  · intro chunk h
    rw [chunkRecords]
    rw [h]
    simp

/-- Witness for the amended claim C1 at two concrete chunks: one with a
unit-bearing match but no keyword (no bare contribution), one with a keyword
(bare records appended). -/
theorem claim_C1_amended_witness :
    chunkRecords "port 144.950mhz 433.5".data =
        unitRecords (String.mk (baudIn "port 144.950mhz 433.5".data))
          "port 144.950mhz 433.5".data ∧
    chunkRecords "fm 144.950mhz 433.5".data =
        unitRecords (String.mk (baudIn "fm 144.950mhz 433.5".data))
            "fm 144.950mhz 433.5".data ++
          bareRecords (String.mk (baudIn "fm 144.950mhz 433.5".data))
            "fm 144.950mhz 433.5".data :=
  ⟨claim_C1_amended.1 _ (by decide), claim_C1_amended.2 _ (by decide)⟩

/-! ### Claim C6: coordinate derivation and dropping -/

/-- Claim C6: the latitude (resp. longitude) is taken from the point's own
coordinate entry whenever that entry is truthy; the named property fields are
consulted exactly when the point's own entry fails — which includes the case
of a coordinate equal to `0` (Python falsiness) — and a point for which
either derived value is not a usable number is dropped, the builder simply
continuing with the remaining points (same next id, no error). -/
theorem claim_C6 (p : RawPoint) :
    (truthy p.lat = true → latSrc p = p.lat) ∧
    (truthy p.lat = false →
      latSrc p = pyOr (getJ p.properties "lat") (getJ p.properties "latitude")) ∧
    (truthy p.lng = true → lngSrc p = p.lng) ∧
    (truthy p.lng = false →
      lngSrc p = pyOr (pyOr (getJ p.properties "lng") (getJ p.properties "lon"))
        (getJ p.properties "longitude")) ∧
    truthy (JVal.num 0) = false ∧
    (∀ (n : ℕ) (rest : List RawPoint), latVal p = none ∨ lngVal p = none →
      buildItemsAux n (p :: rest) = buildItemsAux n rest) := by
  refine ⟨?_, ?_, ?_, ?_, by decide, ?_⟩
  · intro h; simp [latSrc, pyOr, h]
  · intro h; simp [latSrc, pyOr, h]
  · intro h; simp [lngSrc, pyOr, h]
  · intro h; simp [lngSrc, pyOr, h]
  · intro n rest h
    rcases h with h | h
    · rw [buildItemsAux, h]
    · cases hl : latVal p with
      | none => rw [buildItemsAux, hl]
      | some la => rw [buildItemsAux, hl, h]

/-- Witness for claim C6 at a concrete point whose own `lat` is `0` (the
property chain is consulted) and whose own `lng` is a truthy non-numeric
string (`float` fails, so the point is dropped without an error). -/
theorem claim_C6_witness :
    latSrc oddPoint =
        pyOr (getJ oddPoint.properties "lat") (getJ oddPoint.properties "latitude") ∧
    buildItemsAux 1 [oddPoint] = buildItemsAux 1 [] :=
  ⟨(claim_C6 oddPoint).2.1 (by decide),
   (claim_C6 oddPoint).2.2.2.2.2 1 [] (Or.inr (by decide))⟩

/-! ### Claim C9: the endpoint resolver never returns an empty set -/

/-- Claim C9 counterexample: on the empty HTML input nothing matches the URL
pattern, yet `_find_data_urls_from_html` does not return an empty list — the
known-good `DATA_URL` is always appended before sorting. -/
theorem claim_C9_counterexample :
    findApiMatches "" = [] ∧ findDataUrlsFromHtml "" ≠ [] := by
  refine ⟨by decide, by decide⟩

/-- Claim C9 (amended): the resolver is a total function (termination is
inherent in the model), and when nothing in the HTML matches its URL pattern
it returns exactly the one-element list holding the default known-good
endpoint `DATA_URL` — never the empty set. -/
theorem claim_C9_amended (html : String) (h : findApiMatches html = []) :
    findDataUrlsFromHtml html = [DATA_URL.data] := by
  simp [findDataUrlsFromHtml, h, dedupList, sortLe, insertLe]

/-- Witness for the amended claim C9 on the empty HTML input. -/
theorem claim_C9_amended_witness : findDataUrlsFromHtml "" = [DATA_URL.data] :=
  claim_C9_amended "" (by decide)

/-! ### Claim C8: escaping and re-parsing emitted string literals -/

theorem rbSlash_cons (c : Char) (l : List Char) :
    rbSlash (c :: l) =
      (if c = bslashC then [bslashC, bslashC] else [c]) ++ rbSlash l := by
  by_cases h : c = bslashC <;> simp [rbSlash, h]

theorem rbTick_cons (c : Char) (l : List Char) :
    rbTick (c :: l) =
      (if c = btickC then [bslashC, btickC] else [c]) ++ rbTick l := by
  by_cases h : c = btickC <;> simp [rbTick, h]

theorem rbDollar_cons_ne (x : Char) (l : List Char) (h : x ≠ dollarC) :
    rbDollar (x :: l) = x :: rbDollar l := by
  cases l with
  | nil => simp [rbDollar]
  | cons d r => simp [rbDollar, h]

theorem rbDollar_dollar_ne (d : Char) (r : List Char) (h : d ≠ lbraceC) :
    rbDollar (dollarC :: d :: r) = dollarC :: rbDollar (d :: r) := by
  simp [rbDollar, h]

theorem rbDollar_dollar_lbrace (r : List Char) :
    rbDollar (dollarC :: lbraceC :: r) = bslashC :: dollarC :: lbraceC :: rbDollar r := by
  simp [rbDollar]

theorem rbSlash_nil : rbSlash [] = [] := rfl
theorem rbTick_nil : rbTick [] = [] := rfl
theorem rbDollar_nil : rbDollar [] = [] := rfl

/-- The head of `rbTick (rbSlash (d :: cs))` is `d` itself or a backslash. -/
theorem rbTickSlash_head (d : Char) (cs : List Char) :
    ∃ y Y, rbTick (rbSlash (d :: cs)) = y :: Y ∧ (y = d ∨ y = bslashC) := by
  rw [rbSlash_cons]
  by_cases hb : d = bslashC
  · rw [if_pos hb, List.cons_append, List.cons_append, List.nil_append, rbTick_cons]
    have hne : ¬ bslashC = btickC := by decide
    rw [if_neg hne, List.cons_append, List.nil_append]
    exact ⟨bslashC, _, rfl, Or.inr rfl⟩
  · rw [if_neg hb, List.cons_append, List.nil_append, rbTick_cons]
    by_cases ht : d = btickC
    · rw [if_pos ht, List.cons_append, List.cons_append, List.nil_append]
      exact ⟨bslashC, _, rfl, Or.inr rfl⟩
    · rw [if_neg ht, List.cons_append, List.nil_append]
      exact ⟨d, _, rfl, Or.inl rfl⟩

theorem escape_eq_escSpec : ∀ l : List Char, rbDollar (rbTick (rbSlash l)) = escSpec l := by
  have e1 : ¬ bslashC = btickC := by decide
  have e2 : bslashC ≠ dollarC := by decide
  have e3 : ¬ btickC = bslashC := by decide
  have e4 : btickC ≠ dollarC := by decide
  have e5 : ¬ dollarC = bslashC := by decide
  have e6 : ¬ dollarC = btickC := by decide
  have e7 : ¬ lbraceC = bslashC := by decide
  have e8 : ¬ lbraceC = btickC := by decide
  suffices h : ∀ (n : ℕ) (l : List Char), l.length ≤ n →
      rbDollar (rbTick (rbSlash l)) = escSpec l from
    fun l => h l.length l le_rfl
  intro n
  induction n with
  | zero =>
    intro l hl
    rw [List.length_eq_zero.mp (Nat.le_zero.mp hl)]
    rfl
  | succ n ih =>
    intro l hl
    match l with
    | [] => rfl
    | [c] =>
      rw [rbSlash_cons, rbSlash_nil, List.append_nil]
      by_cases hb : c = bslashC
      · rw [if_pos hb, rbTick_cons, if_neg e1, rbTick_cons, if_neg e1, rbTick_nil]
        simp only [List.cons_append, List.nil_append, List.append_nil]
        rw [rbDollar_cons_ne _ _ e2, rbDollar_cons_ne _ _ e2, rbDollar_nil,
          escSpec, if_pos hb]
      · rw [if_neg hb, rbTick_cons]
        by_cases ht : c = btickC
        · rw [if_pos ht, rbTick_nil]
          simp only [List.cons_append, List.nil_append, List.append_nil]
          rw [rbDollar_cons_ne _ _ e2, rbDollar_cons_ne _ _ e4, rbDollar_nil,
            escSpec, if_neg hb, if_pos ht]
        · rw [if_neg ht, rbTick_nil]
          simp only [List.cons_append, List.nil_append, List.append_nil]
          rw [escSpec, if_neg hb, if_neg ht]
          cases hd : decide (c = dollarC) with
          | true =>
            have hc := of_decide_eq_true hd
            rw [hc]
            rfl
          | false =>
            have hc := of_decide_eq_false hd
            rw [rbDollar_cons_ne _ _ hc, rbDollar_nil]
    | c :: d :: cs =>
      have hlen : (d :: cs).length ≤ n := by simpa using hl
      rw [rbSlash_cons]
      by_cases hb : c = bslashC
      · rw [if_pos hb, List.cons_append, List.cons_append, List.nil_append,
          rbTick_cons, if_neg e1, rbTick_cons, if_neg e1]
        simp only [List.cons_append, List.nil_append]
        rw [rbDollar_cons_ne _ _ e2, rbDollar_cons_ne _ _ e2,
          escSpec, if_pos hb, ih (d :: cs) hlen]
      · rw [if_neg hb, List.cons_append, List.nil_append, rbTick_cons]
        by_cases ht : c = btickC
        · rw [if_pos ht]
          simp only [List.cons_append, List.nil_append]
          rw [rbDollar_cons_ne _ _ e2, rbDollar_cons_ne _ _ e4,
            escSpec, if_neg hb, if_pos ht, ih (d :: cs) hlen]
        · rw [if_neg ht]
          simp only [List.cons_append, List.nil_append]
          by_cases hd : c = dollarC
          · by_cases hdl : d = lbraceC
            · rw [hd, hdl]
              rw [show rbTick (rbSlash (lbraceC :: cs)) =
                    lbraceC :: rbTick (rbSlash cs) by
                  rw [rbSlash_cons, if_neg e7, List.cons_append, List.nil_append,
                    rbTick_cons, if_neg e8, List.cons_append, List.nil_append]]
              rw [rbDollar_dollar_lbrace, escSpec, if_neg e5, if_neg e6,
                if_pos ⟨rfl, rfl⟩]
              have hcs : cs.length ≤ n := le_trans (by simp) hlen
              rw [ih cs hcs]
            · rcases rbTickSlash_head d cs with ⟨y, Y, hy, hcase⟩
              rw [hd, hy]
              have hyl : y ≠ lbraceC := by
                rcases hcase with rfl | rfl
                · exact hdl
                · decide
              rw [rbDollar_dollar_ne _ _ hyl, ← hy, escSpec, if_neg e5, if_neg e6,
                if_neg (fun hh : dollarC = dollarC ∧ d = lbraceC => hdl hh.2),
                ih (d :: cs) hlen]
          · rw [rbDollar_cons_ne _ _ hd, escSpec, if_neg hb, if_neg ht,
              if_neg (fun hh : c = dollarC ∧ d = lbraceC => hd hh.1),
              ih (d :: cs) hlen]

theorem parseSQBody_quote (r : List Char) : parseSQBody (squoteC :: r) = some ([], r) := by
  unfold parseSQBody
  rw [if_pos rfl]

theorem parseSQBody_bslash (e : Char) (r : List Char) :
    parseSQBody (bslashC :: e :: r) =
      match parseSQBody r with
      | some (v, rem) => some (unescChar e :: v, rem)
      | none => none := by
  conv_lhs => unfold parseSQBody
  rw [if_neg (by decide : ¬ bslashC = squoteC), if_pos rfl]

theorem parseSQBody_ord (c : Char) (r : List Char) (h1 : ¬ c = squoteC) (h2 : ¬ c = bslashC) :
    parseSQBody (c :: r) =
      match parseSQBody r with
      | some (v, rem) => some (c :: v, rem)
      | none => none := by
  conv_lhs => unfold parseSQBody
  rw [if_neg h1, if_neg h2]

/-- Re-parsing the escaped body of a quote-free value recovers it exactly. -/
theorem parseSQBody_escSpec :
    ∀ l : List Char, squoteC ∉ l → parseSQBody (escSpec l ++ [squoteC]) = some (l, []) := by
  have q2 : ¬ lbraceC = squoteC := by decide
  have q3 : ¬ lbraceC = bslashC := by decide
  have u1 : unescChar bslashC = bslashC := by decide
  have u2 : unescChar btickC = btickC := by decide
  have u3 : unescChar dollarC = dollarC := by decide
  suffices h : ∀ (n : ℕ) (l : List Char), l.length ≤ n → squoteC ∉ l →
      parseSQBody (escSpec l ++ [squoteC]) = some (l, []) from
    fun l => h l.length l le_rfl
  intro n
  induction n with
  | zero =>
    intro l hl _
    rw [List.length_eq_zero.mp (Nat.le_zero.mp hl)]
    exact parseSQBody_quote []
  | succ n ih =>
    intro l hl hq
    match l with
    | [] => exact parseSQBody_quote []
    | [c] =>
      have hc : ¬ c = squoteC := fun hh => hq (by rw [hh]; exact List.mem_cons_self _ _)
      rw [escSpec]
      by_cases hb : c = bslashC
      · rw [if_pos hb, List.cons_append, List.cons_append, List.nil_append,
          parseSQBody_bslash, parseSQBody_quote, hb, u1]
      · rw [if_neg hb]
        by_cases ht : c = btickC
        · rw [if_pos ht, List.cons_append, List.cons_append, List.nil_append,
            parseSQBody_bslash, parseSQBody_quote, ht, u2]
        · rw [if_neg ht, List.cons_append, List.nil_append,
            parseSQBody_ord c _ hc hb, parseSQBody_quote]
    | c :: d :: cs =>
      have hc : ¬ c = squoteC := fun hh => hq (by rw [hh]; exact List.mem_cons_self _ _)
      have hq2 : squoteC ∉ d :: cs := fun hh => hq (List.mem_cons_of_mem c hh)
      have hlen : (d :: cs).length ≤ n := by simpa using hl
      rw [escSpec]
      by_cases hb : c = bslashC
      · rw [if_pos hb, List.cons_append, List.cons_append,
          parseSQBody_bslash, ih (d :: cs) hlen hq2, u1, hb]
      · rw [if_neg hb]
        by_cases ht : c = btickC
        · rw [if_pos ht, List.cons_append, List.cons_append,
            parseSQBody_bslash, ih (d :: cs) hlen hq2, u2, ht]
        · by_cases hdl : c = dollarC ∧ d = lbraceC
          · rw [if_neg ht, if_pos hdl]
            have hq3 : squoteC ∉ cs := fun hh => hq2 (List.mem_cons_of_mem d hh)
            have hcs : cs.length ≤ n := le_trans (by simp) hlen
            rw [List.cons_append, List.cons_append, List.cons_append,
              parseSQBody_bslash, parseSQBody_ord lbraceC _ q2 q3, ih cs hcs hq3, u3,
              hdl.1, hdl.2]
          · rw [if_neg ht, if_neg hdl, List.cons_append,
              parseSQBody_ord c _ hc hb, ih (d :: cs) hlen hq2]

/-- Claim C8 counterexample: `_js_escape` does not escape the single quote —
the delimiter the emitter actually uses — so the value `a'b` does not survive
a round trip through the emitted literal: the re-parser stops at the embedded
quote and yields `a` with trailing garbage. -/
theorem claim_C8_counterexample :
    parseSQ (emitSQLiteral quoteSample) ≠ some (quoteSample.data, []) ∧
    parseSQ (emitSQLiteral quoteSample) = some (['a'], ['b', squoteC]) := by
  refine ⟨by decide, by decide⟩

/-- Claim C8 (amended): the emitter escapes backslashes, backticks and the
`${` interpolation marker in every string field value, and re-parsing the
emitted single-quoted literal recovers the original value — provided the
value contains no single quote (the delimiter itself is not escaped). -/
theorem claim_C8_amended (s : String) (h : squoteC ∉ s.data) :
    parseSQ (emitSQLiteral s) = some (s.data, []) := by
  show parseSQBody ((jsEscape s).data ++ [squoteC]) = some (s.data, [])
  have hd : (jsEscape s).data = escSpec s.data := escape_eq_escSpec s.data
  rw [hd]
  exact parseSQBody_escSpec s.data h

/-- Witness for the amended claim C8 on a value containing a backslash, a
backtick and an interpolation marker (but no single quote). -/
theorem claim_C8_amended_witness :
    parseSQ (emitSQLiteral escSample) = some (escSample.data, []) :=
  claim_C8_amended escSample (by decide)

/-! ### Claim C2: digit-string infrastructure -/

theorem ofDigits_append_single (l : List ℕ) (d : ℕ) :
    ofDigits (l ++ [d]) = 10 * ofDigits l + d := by
  rw [ofDigits, ofDigits, List.foldl_append]
  rfl

theorem ofDigits_cons_zero (x : List ℕ) : ofDigits (0 :: x) = ofDigits x := by
  rw [ofDigits, ofDigits]
  rfl

theorem ofDigits_replicate_zero_append (j : ℕ) (x : List ℕ) :
    ofDigits (List.replicate j 0 ++ x) = ofDigits x := by
  induction j with
  | zero => rw [List.replicate_zero, List.nil_append]
  | succ j ih =>
    rw [List.replicate_succ, List.cons_append]
    have : ofDigits (0 :: (List.replicate j 0 ++ x)) = ofDigits (List.replicate j 0 ++ x) :=
      ofDigits_cons_zero _
    rw [this, ih]

theorem ofDigits_append_replicate_zero (x : List ℕ) (k : ℕ) :
    ofDigits (x ++ List.replicate k 0) = ofDigits x * 10 ^ k := by
  induction k generalizing x with
  | zero => simp
  | succ k ih =>
    have h1 : x ++ List.replicate (k + 1) 0 = (x ++ [0]) ++ List.replicate k 0 := by
      rw [List.replicate_succ, List.append_assoc]
      rfl
    rw [h1, ih, ofDigits_append_single]
    ring

/-- Correctness of the fuel-driven digit expansion, under the adequacy bound
`n < 10 ^ (fuel + 1)`. -/
theorem natDigitsF_correct :
    ∀ (fuel n : ℕ), n < 10 ^ (fuel + 1) →
      ofDigits (natDigitsF fuel n) = n ∧ (∀ d ∈ natDigitsF fuel n, d < 10) ∧
        natDigitsF fuel n ≠ [] := by
  intro fuel
  induction fuel with
  | zero =>
    intro n hn
    rw [natDigitsF]
    refine ⟨?_, ?_, by simp⟩
    · rw [ofDigits]; simp
    · intro d hd
      rw [List.mem_singleton.mp hd]
      simpa using hn
  | succ fuel ih =>
    intro n hn
    rw [natDigitsF]
    by_cases h10 : n < 10
    · rw [if_pos h10]
      refine ⟨by rw [ofDigits]; simp, ?_, by simp⟩
      intro d hd
      rw [List.mem_singleton.mp hd]
      exact h10
    · rw [if_neg h10]
      have hdiv : n / 10 < 10 ^ (fuel + 1) := by
        rw [Nat.div_lt_iff_lt_mul (by norm_num : 0 < 10)]
        calc n < 10 ^ (fuel + 1 + 1) := hn
        _ = 10 ^ (fuel + 1) * 10 := by ring
      obtain ⟨hval, hdig, _⟩ := ih (n / 10) hdiv
      refine ⟨?_, ?_, by simp⟩
      · rw [ofDigits_append_single, hval]
        exact Nat.div_add_mod n 10
      · intro d hd
        rcases List.mem_append.mp hd with h | h
        · exact hdig d h
        · rw [List.mem_singleton.mp h]
          exact Nat.mod_lt n (by norm_num)

theorem natDigitsF_length :
    ∀ (fuel n k : ℕ), n < 10 ^ (fuel + 1) → n < 10 ^ k → 1 ≤ k →
      (natDigitsF fuel n).length ≤ k := by
  intro fuel
  induction fuel with
  | zero =>
    intro n k _ _ hk
    rw [natDigitsF]
    simpa using hk
  | succ fuel ih =>
    intro n k hn hnk hk
    rw [natDigitsF]
    by_cases h10 : n < 10
    · rw [if_pos h10]
      simpa using hk
    · rw [if_neg h10]
      have hdiv : n / 10 < 10 ^ (fuel + 1) := by
        rw [Nat.div_lt_iff_lt_mul (by norm_num : 0 < 10)]
        calc n < 10 ^ (fuel + 1 + 1) := hn
        _ = 10 ^ (fuel + 1) * 10 := by ring
      have hk2 : 2 ≤ k := by
        rcases Nat.lt_or_ge k 2 with hlt | hge
        · exfalso
          have hk1 : k = 1 := by omega
          rw [hk1, pow_one] at hnk
          omega
        · exact hge
      have hdivk : n / 10 < 10 ^ (k - 1) := by
        rw [Nat.div_lt_iff_lt_mul (by norm_num : 0 < 10)]
        calc n < 10 ^ k := hnk
        _ = 10 ^ (k - 1) * 10 := by
            rw [← pow_succ]
            congr 1
            omega
      have := ih (n / 10) (k - 1) hdiv hdivk (by omega)
      rw [List.length_append]
      simp only [List.length_singleton]
      omega

theorem natDigits_correct (n : ℕ) :
    ofDigits (natDigits n) = n ∧ (∀ d ∈ natDigits n, d < 10) ∧ natDigits n ≠ [] := by
  rw [natDigits]
  refine natDigitsF_correct n n ?_
  calc n < 10 ^ n := Nat.lt_pow_self (by norm_num) n
  _ ≤ 10 ^ (n + 1) := Nat.pow_le_pow_right (by norm_num) (Nat.le_succ n)

theorem natDigits_length_le (n k : ℕ) (hnk : n < 10 ^ k) (hk : 1 ≤ k) :
    (natDigits n).length ≤ k := by
  rw [natDigits]
  refine natDigitsF_length n n k ?_ hnk hk
  calc n < 10 ^ n := Nat.lt_pow_self (by norm_num) n
  _ ≤ 10 ^ (n + 1) := Nat.pow_le_pow_right (by norm_num) (Nat.le_succ n)

theorem charToDigit_digitChar (d : ℕ) (hd : d < 10) : charToDigit (digitChar d) = d := by
  interval_cases d <;> decide

theorem isDigitCh_digitChar (d : ℕ) (hd : d < 10) : isDigitCh (digitChar d) = true := by
  interval_cases d <;> decide

theorem ofDigitsC_natChars (n : ℕ) : ofDigitsC (natChars n) = n := by
  obtain ⟨hval, hdig, _⟩ := natDigits_correct n
  rw [ofDigitsC, natChars, List.map_map]
  have hmap : (natDigits n).map (charToDigit ∘ digitChar) = natDigits n := by
    have h1 : (natDigits n).map (charToDigit ∘ digitChar) = (natDigits n).map id :=
      List.map_congr_left fun d hd => charToDigit_digitChar d (hdig d hd)
    rw [h1, List.map_id]
  rw [hmap, hval]

/-! ### Claim C2: prefix scanning and right-stripping -/

theorem takeWhile_all {α : Type} (p : α → Bool) :
    ∀ x : List α, (∀ a ∈ x, p a = true) → x.takeWhile p = x ∧ x.dropWhile p = [] := by
  intro x
  induction x with
  | nil => intro _; exact ⟨rfl, rfl⟩
  | cons a t ih =>
    intro h
    have ha : p a = true := h a (by simp)
    obtain ⟨h1, h2⟩ := ih fun b hb => h b (by simp [hb])
    rw [List.takeWhile_cons, List.dropWhile_cons, ha]
    simp only [if_true]
    exact ⟨by rw [h1], h2⟩

theorem takeWhile_append_stop {α : Type} (p : α → Bool) (x : List α) (c : α) (y : List α)
    (hx : ∀ a ∈ x, p a = true) (hc : p c = false) :
    (x ++ c :: y).takeWhile p = x ∧ (x ++ c :: y).dropWhile p = c :: y := by
  induction x with
  | nil =>
    rw [List.nil_append, List.takeWhile_cons, List.dropWhile_cons, hc]
    simp
  | cons a t ih =>
    have ha : p a = true := hx a (by simp)
    obtain ⟨h1, h2⟩ := ih fun b hb => hx b (by simp [hb])
    rw [List.cons_append, List.takeWhile_cons, List.dropWhile_cons, ha]
    simp only [if_true]
    exact ⟨by rw [h1], h2⟩

theorem dropWhile_eq_cons_head {α : Type} (p : α → Bool) :
    ∀ (l : List α) (y : α) (t : List α), l.dropWhile p = y :: t → p y = false := by
  intro l
  induction l with
  | nil => intro y t h; simp [List.dropWhile] at h
  | cons a r ih =>
    intro y t h
    rw [List.dropWhile_cons] at h
    by_cases ha : p a = true
    · rw [ha] at h
      simp only [if_true] at h
      exact ih y t h
    · rw [Bool.not_eq_true] at ha
      rw [ha] at h
      simp only [Bool.false_eq_true, if_false] at h
      rw [← (List.cons.injEq _ _ _ _).mp h |>.1]
      exact ha

/-- Decomposition of `rstrip`: the original list is the stripped part plus a
run of the stripped character, and the stripped part does not end in it. -/
theorem rstrip_decomp (c : Char) (l : List Char) :
    ∃ k, l = rstrip c l ++ List.replicate k c := by
  rw [rstrip]
  refine ⟨(l.reverse.takeWhile (fun a => decide (a = c))).length, ?_⟩
  have hsplit := List.takeWhile_append_dropWhile
    (p := fun a => decide (a = c)) (l := l.reverse)
  have hrep : l.reverse.takeWhile (fun a => decide (a = c)) =
      List.replicate (l.reverse.takeWhile (fun a => decide (a = c))).length c := by
    apply List.eq_replicate_of_mem
    intro b hb
    have := List.mem_takeWhile_imp hb
    simpa using this
  calc l = l.reverse.reverse := by rw [List.reverse_reverse]
  _ = (l.reverse.takeWhile (fun a => decide (a = c)) ++
        l.reverse.dropWhile (fun a => decide (a = c))).reverse := by rw [hsplit]
  _ = (l.reverse.dropWhile (fun a => decide (a = c))).reverse ++
        (l.reverse.takeWhile (fun a => decide (a = c))).reverse := by
      rw [List.reverse_append]
  _ = _ := by
      congr 1
      conv_lhs => rw [hrep]
      rw [List.reverse_replicate]

theorem rstrip_last_ne (c : Char) (l : List Char) :
    rstrip c l = [] ∨ ∃ Y y, rstrip c l = Y ++ [y] ∧ ¬ y = c := by
  rw [rstrip]
  cases hd : l.reverse.dropWhile (fun a => decide (a = c)) with
  | nil => exact Or.inl rfl
  | cons y t =>
    refine Or.inr ⟨t.reverse, y, by simp, ?_⟩
    have := dropWhile_eq_cons_head (fun a => decide (a = c)) l.reverse y t hd
    simpa using this

theorem rstrip_append_replicate (c : Char) (x : List Char) (k : ℕ) :
    rstrip c (x ++ List.replicate k c) = rstrip c x := by
  rw [rstrip, rstrip, List.reverse_append, List.reverse_replicate]
  congr 1
  induction k with
  | zero => rw [List.replicate_zero, List.nil_append]
  | succ k ih =>
    rw [List.replicate_succ, List.cons_append, List.dropWhile_cons]
    simp [ih]

theorem rstrip_of_last_ne (c : Char) (X : List Char) (y : Char) (hy : ¬ y = c) :
    rstrip c (X ++ [y]) = X ++ [y] := by
  rw [rstrip, List.reverse_append]
  simp only [List.reverse_singleton, List.singleton_append, List.dropWhile_cons]
  have : (decide (y = c)) = false := by simpa using hy
  rw [this]
  simp

theorem rstrip_append_self (c : Char) (X : List Char) :
    rstrip c (X ++ [c]) = rstrip c X := by
  have h := rstrip_append_replicate c X 1
  simpa using h

/-! ### Claim C2: parsing the formatted decimal back -/

theorem isDigitCh_ne_minus {c : Char} (h : isDigitCh c = true) : ¬ c = '-' := by
  intro hc
  rw [hc] at h
  exact absurd h (by decide)

theorem isDigitCh_ne_plus {c : Char} (h : isDigitCh c = true) : ¬ c = '+' := by
  intro hc
  rw [hc] at h
  exact absurd h (by decide)

theorem isDigitCh_dot : isDigitCh dotC = false := by decide

/-- `parseDecimal` on a non-empty all-digit string. -/
theorem parseDecimal_digits (i0 : Char) (itl : List Char)
    (hdig : ∀ a ∈ i0 :: itl, isDigitCh a = true) :
    parseDecimal (i0 :: itl) = some ((ofDigitsC (i0 :: itl) : ℕ) : ℚ) := by
  have hi0 : isDigitCh i0 = true := hdig i0 (by simp)
  obtain ⟨htake, hdrop⟩ := takeWhile_all isDigitCh (i0 :: itl) hdig
  rw [parseDecimal.eq_def]
  simp only [isDigitCh_ne_minus hi0, isDigitCh_ne_plus hi0, if_false, htake, hdrop]
  simp

/-- `parseDecimal` on `digits ++ "." ++ digits` with a non-empty integer
part. -/
theorem parseDecimal_digits_dot (i0 : Char) (itl fp : List Char)
    (hip : ∀ a ∈ i0 :: itl, isDigitCh a = true)
    (hfp : ∀ a ∈ fp, isDigitCh a = true) :
    parseDecimal ((i0 :: itl) ++ dotC :: fp) =
      some (((ofDigitsC (i0 :: itl) : ℕ) : ℚ) + ((ofDigitsC fp : ℕ) : ℚ) / 10 ^ fp.length) := by
  have hi0 : isDigitCh i0 = true := hip i0 (by simp)
  obtain ⟨htake, hdrop⟩ :=
    takeWhile_append_stop isDigitCh (i0 :: itl) dotC fp hip isDigitCh_dot
  obtain ⟨htake2, hdrop2⟩ := takeWhile_all isDigitCh fp hfp
  rw [parseDecimal.eq_def]
  simp only [List.cons_append, isDigitCh_ne_minus hi0, isDigitCh_ne_plus hi0, if_false]
  rw [show (i0 :: (itl ++ dotC :: fp)).takeWhile isDigitCh = i0 :: itl from htake,
    show (i0 :: (itl ++ dotC :: fp)).dropWhile isDigitCh = dotC :: fp from hdrop]
  simp only [if_pos rfl, htake2, hdrop2]
  simp

/-! ### Claim C2: the formatted frequency string parses back into the band -/

theorem natChars_ne_nil (x : ℕ) : natChars x ≠ [] := by
  rw [natChars]
  intro h
  exact (natDigits_correct x).2.2 (List.map_eq_nil_iff.mp h)

theorem natChars_digits (x : ℕ) : ∀ a ∈ natChars x, isDigitCh a = true := by
  intro a ha
  rw [natChars] at ha
  rcases List.mem_map.mp ha with ⟨d, hd, rfl⟩
  exact isDigitCh_digitChar d ((natDigits_correct x).2.1 d hd)

theorem pad6_digits (x : ℕ) : ∀ a ∈ pad6 (natChars x), isDigitCh a = true := by
  intro a ha
  rw [pad6] at ha
  rcases List.mem_append.mp ha with h | h
  · rw [List.eq_of_mem_replicate h]
    decide
  · exact natChars_digits x a h

theorem charToDigit_zero : charToDigit '0' = 0 := by decide

theorem ofDigitsC_append_rep0 (t : List Char) (k : ℕ) :
    ofDigitsC (t ++ List.replicate k '0') = ofDigitsC t * 10 ^ k := by
  rw [ofDigitsC, ofDigitsC, List.map_append, List.map_replicate, charToDigit_zero]
  exact ofDigits_append_replicate_zero _ k

theorem ofDigitsC_pad6 (x : ℕ) : ofDigitsC (pad6 (natChars x)) = x := by
  rw [pad6, ofDigitsC, List.map_append, List.map_replicate, charToDigit_zero,
    ofDigits_replicate_zero_append, ← ofDigitsC]
  exact ofDigitsC_natChars x

theorem pad6_length (x : ℕ) (hx : x < 10 ^ 6) : (pad6 (natChars x)).length = 6 := by
  rw [pad6, List.length_append, List.length_replicate]
  have hle : (natChars x).length ≤ 6 := by
    rw [natChars, List.length_map]
    exact natDigits_length_le x 6 hx (by norm_num)
  omega

theorem round_monotone {x y : ℚ} (h : x ≤ y) : round x ≤ round y := by
  rw [round_eq, round_eq]
  exact Int.floor_le_floor (by linarith)

/-- The core parsing round trip: formatting a value in the plausibility band
yields a string that parses back to a value in the band. -/
theorem fmtMhz_parse (v : ℚ) (h1 : 1/2 ≤ v) (h2 : v ≤ 500) :
    ∃ q : ℚ, parseDecimal (fmtMhz v) = some q ∧ 1/2 ≤ q ∧ q ≤ 500 := by
  have hnlb : (500000 : ℤ) ≤ round (v * 1000000) := by
    have h500 : ((500000 : ℤ) : ℚ) ≤ v * 1000000 := by push_cast; linarith
    calc (500000 : ℤ) = round (((500000 : ℤ) : ℚ)) := (round_intCast 500000).symm
    _ ≤ round (v * 1000000) := round_monotone h500
  have hnub : round (v * 1000000) ≤ (500000000 : ℤ) := by
    have h5e8 : v * 1000000 ≤ ((500000000 : ℤ) : ℚ) := by push_cast; linarith
    calc round (v * 1000000) ≤ round (((500000000 : ℤ) : ℚ)) := round_monotone h5e8
    _ = (500000000 : ℤ) := round_intCast 500000000
  set n : ℤ := round (v * 1000000) with hn
  have hn0 : ¬ n < 0 := by omega
  set m : ℕ := n.natAbs with hm
  have hmz : (m : ℤ) = n := Int.natAbs_of_nonneg (by omega)
  have hmlb : 500000 ≤ m := by omega
  have hmub : m ≤ 500000000 := by omega
  have hfrac : m % 1000000 < 10 ^ 6 := Nat.mod_lt m (by norm_num)
  -- name the integer-part digits and the padded fraction digits
  set ic := natChars (m / 1000000) with hic
  set pad := pad6 (natChars (m % 1000000)) with hpad
  set trimmed := rstrip '0' pad with htrimmed
  obtain ⟨k, hdecomp⟩ := rstrip_decomp '0' pad
  rw [← htrimmed] at hdecomp
  have hpadlen : pad.length = 6 := pad6_length _ hfrac
  have hlenk : trimmed.length + k = 6 := by
    rw [hdecomp, List.length_append, List.length_replicate] at hpadlen
    omega
  have hpadval : ofDigitsC pad = m % 1000000 := ofDigitsC_pad6 _
  have htrimval : ofDigitsC trimmed * 10 ^ k = m % 1000000 := by
    rw [← hpadval, hdecomp]
    exact (ofDigitsC_append_rep0 trimmed k).symm
  have hicne : ic ≠ [] := natChars_ne_nil _
  have hicdig : ∀ a ∈ ic, isDigitCh a = true := natChars_digits _
  have hicval : ofDigitsC ic = m / 1000000 := ofDigitsC_natChars _
  have htrimdig : ∀ a ∈ trimmed, isDigitCh a = true := by
    intro a ha
    refine pad6_digits (m % 1000000) a ?_
    rw [← hpad, hdecomp]
    exact List.mem_append.mpr (Or.inl ha)
  -- the formatted string
  have hic_last : ∃ Y y, ic = Y ++ [y] ∧ isDigitCh y = true := by
    rcases List.eq_nil_or_concat ic with h | ⟨Y, y, h⟩
    · exact absurd h hicne
    · rw [List.concat_eq_append] at h
      exact ⟨Y, y, h, hicdig y (by rw [h]; simp)⟩
  have hdot0 : ¬ dotC = '0' := by decide
  have hfmt : fmtMhz v = if trimmed = [] then ic else ic ++ dotC :: trimmed := by
    rw [fmtMhz, ← hn, if_neg hn0, ← hm, ← hic, ← hpad, List.nil_append]
    have hassoc : ic ++ dotC :: pad = (ic ++ dotC :: trimmed) ++ List.replicate k '0' := by
      rw [hdecomp, List.append_assoc]
      rfl
    rw [hassoc, rstrip_append_replicate]
    by_cases ht : trimmed = []
    · rw [if_pos ht, ht]
      have h1s : rstrip '0' (ic ++ [dotC]) = ic ++ [dotC] :=
        rstrip_of_last_ne '0' ic dotC hdot0
      rw [h1s, rstrip_append_self]
      rcases hic_last with ⟨Y, y, hY, hydig⟩
      rw [hY]
      exact rstrip_of_last_ne dotC Y y (fun hc => by rw [hc] at hydig; exact absurd hydig (by decide))
    · rw [if_neg ht]
      rcases rstrip_last_ne '0' pad with hnil | ⟨Y, y, hY, hy0⟩
      · rw [← htrimmed] at hnil; exact absurd hnil ht
      · rw [← htrimmed] at hY
        have hydig : isDigitCh y = true := htrimdig y (by rw [hY]; simp)
        have hshape : ic ++ dotC :: trimmed = (ic ++ dotC :: Y) ++ [y] := by
          rw [hY]
          simp
        rw [hshape, rstrip_of_last_ne '0' _ y hy0,
          rstrip_of_last_ne dotC _ y
            (fun hc => by rw [hc] at hydig; exact absurd hydig (by decide))]
  -- parse it back
  have hq : ∃ q : ℚ, parseDecimal (fmtMhz v) = some q ∧ q = (m : ℚ) / 1000000 := by
    by_cases ht : trimmed = []
    · rw [hfmt, if_pos ht]
      have hmod0 : m % 1000000 = 0 := by
        rw [← htrimval, ht]
        simp [ofDigitsC, ofDigits]
      rcases List.exists_cons_of_ne_nil hicne with ⟨i0, itl, hi⟩
      refine ⟨((ofDigitsC ic : ℕ) : ℚ), by rw [hi]; exact parseDecimal_digits i0 itl (hi ▸ hicdig), ?_⟩
      rw [hicval]
      have hdvd : 1000000 ∣ m := Nat.dvd_of_mod_eq_zero hmod0
      rw [Nat.cast_div hdvd (by norm_num)]
      norm_num
    · rw [hfmt, if_neg ht]
      rcases List.exists_cons_of_ne_nil hicne with ⟨i0, itl, hi⟩
      refine ⟨_, by rw [hi]; exact parseDecimal_digits_dot i0 itl trimmed (hi ▸ hicdig) htrimdig, ?_⟩
      rw [← hi, hicval]
      have h10 : (10 : ℚ) ^ trimmed.length ≠ 0 := by positivity
      have hsplit : (m : ℚ) = ((m / 1000000 : ℕ) : ℚ) * 1000000 + ((m % 1000000 : ℕ) : ℚ) := by
        have hnat : m = m / 1000000 * 1000000 + m % 1000000 := by omega
        calc (m : ℚ) = ((m / 1000000 * 1000000 + m % 1000000 : ℕ) : ℚ) := by rw [← hnat]
        _ = _ := by push_cast; ring
      have htv : ((ofDigitsC trimmed : ℕ) : ℚ) * 10 ^ k = ((m % 1000000 : ℕ) : ℚ) := by
        calc ((ofDigitsC trimmed : ℕ) : ℚ) * 10 ^ k
            = ((ofDigitsC trimmed * 10 ^ k : ℕ) : ℚ) := by push_cast; ring
        _ = _ := by rw [htrimval]
      have hpow : (10 : ℚ) ^ trimmed.length * 10 ^ k = 1000000 := by
        rw [← pow_add]
        rw [hlenk]
        norm_num
      have hfr : ((ofDigitsC trimmed : ℕ) : ℚ) / 10 ^ trimmed.length
          = ((m % 1000000 : ℕ) : ℚ) / 1000000 := by
        have hp1 : (10 : ℚ) ^ trimmed.length ≠ 0 := by positivity
        have hp2 : (1000000 : ℚ) ≠ 0 := by norm_num
        rw [div_eq_div_iff hp1 hp2, ← hpow, ← htv]
        ring
      rw [hfr, hsplit]
      field_simp
  rcases hq with ⟨q, hparse, hval⟩
  refine ⟨q, hparse, ?_, ?_⟩
  · rw [hval, le_div_iff₀ (by norm_num : (0:ℚ) < 1000000)]
    have hc : (500000 : ℚ) ≤ (m : ℚ) := by exact_mod_cast hmlb
    linarith
  · rw [hval, div_le_iff₀ (by norm_num : (0:ℚ) < 1000000)]
    have hc : (m : ℚ) ≤ 500000000 := by exact_mod_cast hmub
    linarith

/-- Every successful `_to_mhz_str` result is `_fmt_mhz` of a value in the
plausibility band. -/
theorem toMhzStr_shape (rawNum : List Char) (unit : Option (List Char)) (f : List Char)
    (h : toMhzStr rawNum unit = some f) :
    ∃ v : ℚ, (1/2 ≤ v ∧ v ≤ 500) ∧ f = fmtMhz v := by
  rw [toMhzStr] at h
  split at h
  · exact absurd h (by simp)
  · set s := (stripWs rawNum).map (fun c => if c = commaC then dotC else c) with hs
    dsimp only at h
    cases hp : parseDecimal s with
    | none => rw [hp] at h; exact absurd h (by simp)
    | some v0 =>
      rw [hp] at h
      simp only [] at h
      set u := stripWs (lowerChars (unit.getD [])) with hu
      by_cases hku : u = "khz".data
      · rw [if_pos hku] at h
        split at h
        · exact absurd h (by simp)
        · rename_i hband
          rw [not_not] at hband
          exact ⟨v0 / 1000, hband, (Option.some_injective _ h).symm⟩
      · rw [if_neg hku] at h
        split at h
        · exact absurd h (by simp)
        · rename_i hband
          rw [not_not] at hband
          exact ⟨v0, hband, (Option.some_injective _ h).symm⟩

/-- Claim C2: every ChannelRecord emitted by the Channel Extractor carries a
frequency string that parses to a rational in `[0.5, 500.0]` MHz; no record
with a converted value outside the band is ever emitted. -/
theorem claim_C2 (text : String) :
    ∀ c ∈ extractChannels text,
      ∃ q : ℚ, parseDecimal c.freq.data = some q ∧ 1/2 ≤ q ∧ q ≤ 500 := by
  intro c hc
  have hpre : c ∈ preChannels text :=
    (dedupBy_sublist chanKey [] (preChannels text)).subset hc
  rw [preChannels] at hpre
  rcases List.mem_flatMap.mp hpre with ⟨chunk, _, hchunk⟩
  rw [chunkRecords] at hchunk
  rcases List.mem_append.mp hchunk with hunit | hbare
  · rcases List.mem_filterMap.mp hunit with ⟨mtch, _, hf⟩
    rcases Option.map_eq_some'.mp hf with ⟨f, hmhz, hrec⟩
    rcases toMhzStr_shape _ _ _ hmhz with ⟨v, hband, hfv⟩
    have hfreq : c.freq.data = f := by rw [← hrec]
    rw [hfreq, hfv]
    exact fmtMhz_parse v hband.1 hband.2
  · split at hbare
    · rcases List.mem_filterMap.mp hbare with ⟨mtch, _, hf⟩
      split at hf
      · exact absurd hf (by simp)
      · rcases Option.map_eq_some'.mp hf with ⟨f, hmhz, hrec⟩
        rcases toMhzStr_shape _ _ _ hmhz with ⟨v, hband, hfv⟩
        have hfreq : c.freq.data = f := by rw [← hrec]
        rw [hfreq, hfv]
        exact fmtMhz_parse v hband.1 hband.2
    · exact absurd hbare (by simp)

/-- Witness for claim C2 at a concrete input and record. -/
theorem claim_C2_witness :
    ∃ q : ℚ, parseDecimal (Chan.mk "144.39" "" "144.390").freq.data = some q ∧
      1/2 ≤ q ∧ q ≤ 500 :=
  claim_C2 "aprs 144.390" (Chan.mk "144.39" "" "144.390") (by decide)

end UKPacket
